import Mathlib

/-!
Verification of the bloom-filter library (`src/bloomfilter.py`) against its
natural-language specification.

Shallow embedding notes:
* Items are an abstract hashable type `α`; the external hash primitive
  `mmh3.hash(str(item.__hash__()), i)` is the supplied seeded hash function
  `H : α → ℕ → ℤ` (an out-of-scope collaborator per the spec).
* Python's `%` on integers with a positive modulus agrees with `Int.emod`.
* Python `assert` failures, `ValueError` from `math.log` on a nonpositive
  argument, `ZeroDivisionError`, and `IndexError` are all modelled as `none`.
* Python floats are modelled as exact reals; `int()` truncation toward zero is
  `pytrunc`.
-/

namespace BloomSpec

/-- `bloomFilterBasic._compute_hash`:
`return mmh3.hash(str(item.__hash__()), i) % self.m`.
`H item i` stands for the seeded hash value `mmh3.hash(str(item.__hash__()), i)`. -/
def compute_hash {α : Type} (H : α → ℕ → ℤ) (m : ℕ) (item : α) (i : ℕ) : ℕ :=
  ((H item i) % (m : ℤ)).toNat

/-- State of `bloomFilterBasic`: bit count `m`, hash count `k`, the bit array,
and `x`, the running count of bits set to 1. -/
structure bloomFilterBasic where
  m : ℕ
  k : ℕ
  bit_array : List Bool
  x : ℕ
deriving DecidableEq, Repr

/-- `bloomFilterBasic.__init__(n_bits, n_hash)`: asserts both positive, then
allocates `m` zero bits and sets `x = 0`. Assertion failure is `none`. -/
def bloomFilterBasic.init (n_bits n_hash : ℤ) : Option bloomFilterBasic :=
  if 0 < n_bits ∧ 0 < n_hash then
    some { m := n_bits.toNat, k := n_hash.toNat,
           bit_array := List.replicate n_bits.toNat false, x := 0 }
  else none

/-- One iteration of the loop body of `bloomFilterBasic.add_item`:
`if not self.bit_array[self._compute_hash(item, i)]:
     self.bit_array[self._compute_hash(item, i)] = 1
     self.x += 1`
(the pair is `(bit_array, x)`; `m` is `self.m`, never reassigned). -/
def addStep {α : Type} (H : α → ℕ → ℤ) (m : ℕ) (item : α)
    (bx : List Bool × ℕ) (i : ℕ) : List Bool × ℕ :=
  if bx.1.getD (compute_hash H m item i) false = false then
    (bx.1.set (compute_hash H m item i) true, bx.2 + 1)
  else bx

/-- `bloomFilterBasic.add_item`: `for i in range(self.k): ...` with the body
`addStep`. -/
def bloomFilterBasic.add_item {α : Type} (H : α → ℕ → ℤ)
    (bf : bloomFilterBasic) (item : α) : bloomFilterBasic :=
  { bf with
    bit_array := ((List.range bf.k).foldl (addStep H bf.m item) (bf.bit_array, bf.x)).1
    x := ((List.range bf.k).foldl (addStep H bf.m item) (bf.bit_array, bf.x)).2 }

/-- `bloomFilterBasic.query_item`:
`for i in range(self.k): if not self.bit_array[...]: return False` / `return True`. -/
def bloomFilterBasic.query_item {α : Type} (H : α → ℕ → ℤ)
    (bf : bloomFilterBasic) (item : α) : Bool :=
  (List.range bf.k).all fun i => bf.bit_array.getD (compute_hash H bf.m item i) false

/-- `bloomFilterBasic.approximate_num_items`:
`return -(self.m / self.k) * math.log(1 - (self.x / self.m))`.
`x / m` with `m == 0` raises `ZeroDivisionError`, `m / k` with `k == 0` raises
`ZeroDivisionError`, and `math.log` of a nonpositive argument raises
`ValueError`; each raise is modelled as `none`. -/
noncomputable def bloomFilterBasic.approximate_num_items
    (bf : bloomFilterBasic) : Option ℝ :=
  if 0 < bf.m ∧ 0 < bf.k ∧ (0 : ℝ) < 1 - (bf.x : ℝ) / (bf.m : ℝ) then
    some (-((bf.m : ℝ) / (bf.k : ℝ)) * Real.log (1 - (bf.x : ℝ) / (bf.m : ℝ)))
  else none

/-- Well-formedness of a `bloomFilterBasic` state, as established by the
constructor: the bit array has length `m`, the constructor asserts made
`m` and `k` positive, and `x` counts the bits currently set. -/
def bloomFilterBasic.wf (bf : bloomFilterBasic) : Prop :=
  bf.bit_array.length = bf.m ∧ 0 < bf.m ∧ 0 < bf.k ∧
    bf.x = bf.bit_array.count true

instance (bf : bloomFilterBasic) : Decidable bf.wf := by
  unfold bloomFilterBasic.wf; infer_instance

/-- Python `int()` on a real value: truncation toward zero. -/
noncomputable def pytrunc (y : ℝ) : ℤ :=
  if 0 ≤ y then ⌊y⌋ else ⌈y⌉

/-- `m_opt = - int(cap * math.log(fpr) / math.pow(math.log(2), 2))`
from `bloomFilter.__init__`. -/
noncomputable def m_opt (cap fpr : ℝ) : ℤ :=
  -(pytrunc (cap * Real.log fpr / (Real.log 2) ^ 2))

/-- `k_opt = -int(math.log(fpr, 2))` from `bloomFilter.__init__`
(`math.log(fpr, 2)` is `log fpr / log 2`). -/
noncomputable def k_opt (fpr : ℝ) : ℤ :=
  -(pytrunc (Real.log fpr / Real.log 2))

/-- State of `bloomFilter` (the sized filter): the inherited
`bloomFilterBasic` state plus `p` (= `fpr`) and `n` (= `cap`). -/
structure bloomFilter extends bloomFilterBasic where
  n : ℝ
  p : ℝ

/-- `bloomFilter.__init__(cap, fpr)`: asserts `0 < fpr < 1` and `cap > 0`,
stores `p`, `n`, derives `m_opt`, `k_opt` and calls the
`bloomFilterBasic` constructor (whose own assert can still fail). -/
noncomputable def bloomFilter.init (cap fpr : ℝ) : Option bloomFilter :=
  if (0 < fpr ∧ fpr < 1) ∧ 0 < cap then
    match bloomFilterBasic.init (m_opt cap fpr) (k_opt fpr) with
    | none => none
    | some b => some { tobloomFilterBasic := b, n := cap, p := fpr }
  else none

/-- Inherited `add_item` acting on the embedded basic state. -/
def bloomFilter.add_item {α : Type} (H : α → ℕ → ℤ)
    (bf : bloomFilter) (item : α) : bloomFilter :=
  { bf with tobloomFilterBasic := bf.tobloomFilterBasic.add_item H item }

/-- Inherited `query_item`. -/
def bloomFilter.query_item {α : Type} (H : α → ℕ → ℤ)
    (bf : bloomFilter) (item : α) : Bool :=
  bf.tobloomFilterBasic.query_item H item

/-- `bloomFilter.is_at_capacity`:
`if self.approximate_num_items() > self.n: return True` / `return False`;
a raise inside `approximate_num_items` propagates (`none`). -/
noncomputable def bloomFilter.is_at_capacity (bf : bloomFilter) : Option Bool :=
  match bf.tobloomFilterBasic.approximate_num_items with
  | none => none
  | some v => if v > bf.n then some true else some false

/-- State of `scalableBloomFilter`. -/
structure scalableBloomFilter where
  cap_current : ℝ
  fpr_current : ℝ
  s : ℝ
  r : ℝ
  filters : List bloomFilter

/-- `scalableBloomFilter.__init__(fpr, cap0, s, r)`: asserts the parameter
ranges, then sets `cap_current = cap0`, `fpr_current = fpr * r` and builds the
first filter `bloomFilter(cap_current, fpr_current)` (whose asserts can fail). -/
noncomputable def scalableBloomFilter.init (fpr cap0 s r : ℝ) :
    Option scalableBloomFilter :=
  if ((fpr < 1 ∧ 0 < fpr) ∧ 0 < cap0) ∧ 1 < s ∧ (0 < r ∧ r < 1) then
    match bloomFilter.init cap0 (fpr * r) with
    | none => none
    | some f =>
      some { cap_current := cap0, fpr_current := fpr * r, s := s, r := r,
             filters := [f] }
  else none

/-- `scalableBloomFilter.query_item`: OR over all filters, in order. -/
def scalableBloomFilter.query_item {α : Type} (H : α → ℕ → ℤ)
    (sb : scalableBloomFilter) (item : α) : Bool :=
  sb.filters.any fun f => f.query_item H item

/-- `scalableBloomFilter.add_item`: return if `query_item` is positive;
otherwise insert into `filters[-1]` when it is not at capacity; otherwise grow
(`cap_current *= s`, `fpr_current *= r`, append a fresh `bloomFilter`, insert
into it).  `filters[-1]` on an empty list (`IndexError`), a raise inside
`is_at_capacity`, and a failed `bloomFilter` construction are `none`. -/
noncomputable def scalableBloomFilter.add_item {α : Type} (H : α → ℕ → ℤ)
    (sb : scalableBloomFilter) (item : α) : Option scalableBloomFilter :=
  if sb.query_item H item then some sb
  else if h : 0 < sb.filters.length then
    match (sb.filters.get ⟨sb.filters.length - 1, by omega⟩).is_at_capacity with
    | none => none
    | some false =>
        some { sb with
          filters := sb.filters.set (sb.filters.length - 1)
            ((sb.filters.get ⟨sb.filters.length - 1, by omega⟩).add_item H item) }
    | some true =>
        match bloomFilter.init (sb.cap_current * sb.s) (sb.fpr_current * sb.r) with
        | none => none
        | some nf =>
            some { sb with
              cap_current := sb.cap_current * sb.s
              fpr_current := sb.fpr_current * sb.r
              filters := sb.filters ++ [nf.add_item H item] }
  else none

/-- Well-formedness of every member filter of a `scalableBloomFilter`. -/
def scalableBloomFilter.wfS (sb : scalableBloomFilter) : Prop :=
  ∀ j (hj : j < sb.filters.length),
    (sb.filters.get ⟨j, hj⟩).tobloomFilterBasic.wf

/-- An externally observable operation on a filter (`add_item` / `query_item`). -/
inductive filterOp (α : Type) where
  | add : α → filterOp α
  | query : α → filterOp α

/-- Run a sequence of operations on a `bloomFilterBasic`.  `query_item`
contains no assignment, so its translation returns the state unchanged. -/
def runBasic {α : Type} (H : α → ℕ → ℤ) (bf : bloomFilterBasic) :
    List (filterOp α) → bloomFilterBasic
  | [] => bf
  | filterOp.add a :: t => runBasic H (bf.add_item H a) t
  | filterOp.query _ :: t => runBasic H bf t

/-- Run a sequence of operations on a `bloomFilter` (the sized filter). -/
def runSized {α : Type} (H : α → ℕ → ℤ) (bf : bloomFilter) :
    List (filterOp α) → bloomFilter
  | [] => bf
  | filterOp.add a :: t => runSized H (bf.add_item H a) t
  | filterOp.query _ :: t => runSized H bf t

/-- Run a sequence of operations on a `scalableBloomFilter`; an exception in
`add_item` aborts the run (`none`). -/
noncomputable def runScalable {α : Type} (H : α → ℕ → ℤ)
    (sb : scalableBloomFilter) : List (filterOp α) → Option scalableBloomFilter
  | [] => some sb
  | filterOp.add a :: t =>
      match sb.add_item H a with
      | none => none
      | some sb' => runScalable H sb' t
  | filterOp.query _ :: t => runScalable H sb t

/-! ### Bit-array helper lemmas -/

theorem getD_set_mono (l : List Bool) (p q : ℕ)
    (h : l.getD q false = true) : (l.set p true).getD q false = true := by
  induction l generalizing p q with
  | nil => simp at h
  | cons b t ih =>
    cases p with
    | zero =>
      cases q with
      | zero => simp [List.set]
      | succ q => simpa using h
    | succ p =>
      cases q with
      | zero => simpa using h
      | succ q => simpa using ih p q (by simpa using h)

theorem getD_set_self_true (l : List Bool) (p : ℕ) (hp : p < l.length) :
    (l.set p true).getD p false = true := by
  induction l generalizing p with
  | nil => simp at hp
  | cons b t ih =>
    cases p with
    | zero => simp [List.set]
    | succ p => simpa using ih p (by simpa using hp)

theorem count_true_set (l : List Bool) (p : ℕ) (hp : p < l.length)
    (hf : l.getD p false = false) :
    (l.set p true).count true = l.count true + 1 := by
  induction l generalizing p with
  | nil => simp at hp
  | cons b t ih =>
    cases p with
    | zero =>
      have hb : b = false := by simpa using hf
      subst hb
      simp [List.count_cons]
    | succ p =>
      have := ih p (by simpa using hp) (by simpa using hf)
      simp [List.count_cons, this]
      omega

/-! ### Properties of one `add_item` loop iteration -/

theorem addStep_length {α : Type} (H : α → ℕ → ℤ) (m : ℕ) (item : α)
    (bx : List Bool × ℕ) (i : ℕ) :
    (addStep H m item bx i).1.length = bx.1.length := by
  unfold addStep
  split <;> simp

theorem addStep_mono {α : Type} (H : α → ℕ → ℤ) (m : ℕ) (item : α)
    (bx : List Bool × ℕ) (i q : ℕ) (h : bx.1.getD q false = true) :
    (addStep H m item bx i).1.getD q false = true := by
  unfold addStep
  split
  · exact getD_set_mono _ _ _ h
  · exact h

theorem addStep_x_mono {α : Type} (H : α → ℕ → ℤ) (m : ℕ) (item : α)
    (bx : List Bool × ℕ) (i : ℕ) : bx.2 ≤ (addStep H m item bx i).2 := by
  unfold addStep
  split <;> simp

theorem addStep_count {α : Type} (H : α → ℕ → ℤ) (m : ℕ) (item : α)
    (bx : List Bool × ℕ) (i : ℕ) (hm : 0 < m) (hlen : bx.1.length = m)
    (hc : bx.2 = bx.1.count true) :
    (addStep H m item bx i).2 = (addStep H m item bx i).1.count true := by
  have hp : compute_hash H m item i < bx.1.length := by
    rw [hlen]
    unfold compute_hash
    have hne : (m : ℤ) ≠ 0 := by exact_mod_cast hm.ne'
    have h1 : 0 ≤ H item i % (m : ℤ) := Int.emod_nonneg _ hne
    have h2 : H item i % (m : ℤ) < (m : ℤ) := Int.emod_lt_of_pos _ (by exact_mod_cast hm)
    omega
  unfold addStep
  split
  next h =>
    show bx.2 + 1 = (bx.1.set (compute_hash H m item i) true).count true
    rw [count_true_set _ _ hp h, hc]
  next h => exact hc

theorem addStep_sets {α : Type} (H : α → ℕ → ℤ) (m : ℕ) (item : α)
    (bx : List Bool × ℕ) (i : ℕ) (hm : 0 < m) (hlen : bx.1.length = m) :
    (addStep H m item bx i).1.getD (compute_hash H m item i) false = true := by
  have hp : compute_hash H m item i < bx.1.length := by
    rw [hlen]
    unfold compute_hash
    have hne : (m : ℤ) ≠ 0 := by exact_mod_cast hm.ne'
    have h1 : 0 ≤ H item i % (m : ℤ) := Int.emod_nonneg _ hne
    have h2 : H item i % (m : ℤ) < (m : ℤ) := Int.emod_lt_of_pos _ (by exact_mod_cast hm)
    omega
  unfold addStep
  split
  next h => exact getD_set_self_true _ _ hp
  next h => simpa using h

/-! ### Properties of the whole `add_item` fold -/

theorem fold_addStep_length {α : Type} (H : α → ℕ → ℤ) (m : ℕ) (item : α) :
    ∀ (l : List ℕ) (bx : List Bool × ℕ),
      ((l.foldl (addStep H m item) bx).1.length) = bx.1.length := by
  intro l
  induction l with
  | nil => intro bx; rfl
  | cons j t ih =>
    intro bx
    rw [List.foldl_cons, ih, addStep_length]

theorem fold_addStep_mono {α : Type} (H : α → ℕ → ℤ) (m : ℕ) (item : α) :
    ∀ (l : List ℕ) (bx : List Bool × ℕ) (q : ℕ),
      bx.1.getD q false = true →
      ((l.foldl (addStep H m item) bx).1.getD q false) = true := by
  intro l
  induction l with
  | nil => intro bx q h; exact h
  | cons j t ih =>
    intro bx q h
    rw [List.foldl_cons]
    exact ih _ q (addStep_mono H m item bx j q h)

theorem fold_addStep_x_mono {α : Type} (H : α → ℕ → ℤ) (m : ℕ) (item : α) :
    ∀ (l : List ℕ) (bx : List Bool × ℕ),
      bx.2 ≤ (l.foldl (addStep H m item) bx).2 := by
  intro l
  induction l with
  | nil => intro bx; exact le_refl _
  | cons j t ih =>
    intro bx
    rw [List.foldl_cons]
    exact le_trans (addStep_x_mono H m item bx j) (ih _)

theorem fold_addStep_count {α : Type} (H : α → ℕ → ℤ) (m : ℕ) (item : α)
    (hm : 0 < m) :
    ∀ (l : List ℕ) (bx : List Bool × ℕ), bx.1.length = m →
      bx.2 = bx.1.count true →
      (l.foldl (addStep H m item) bx).2 =
        (l.foldl (addStep H m item) bx).1.count true := by
  intro l
  induction l with
  | nil => intro bx _ hc; exact hc
  | cons j t ih =>
    intro bx hlen hc
    rw [List.foldl_cons]
    exact ih _ (by rw [addStep_length, hlen]) (addStep_count H m item bx j hm hlen hc)

theorem fold_addStep_sets {α : Type} (H : α → ℕ → ℤ) (m : ℕ) (item : α)
    (hm : 0 < m) :
    ∀ (l : List ℕ) (bx : List Bool × ℕ), bx.1.length = m →
      ∀ i ∈ l, ((l.foldl (addStep H m item) bx).1.getD
        (compute_hash H m item i) false) = true := by
  intro l
  induction l with
  | nil => intro bx _ i hi; simp at hi
  | cons j t ih =>
    intro bx hlen i hi
    rw [List.foldl_cons]
    rcases List.mem_cons.mp hi with rfl | hit
    · exact fold_addStep_mono H m item t _ _ (addStep_sets H m item bx i hm hlen)
    · exact ih _ (by rw [addStep_length, hlen]) i hit

/-! ### `add_item` / `query_item` facts for the fixed filter -/

theorem add_item_m {α : Type} (H : α → ℕ → ℤ) (bf : bloomFilterBasic) (item : α) :
    (bf.add_item H item).m = bf.m := rfl

theorem add_item_k {α : Type} (H : α → ℕ → ℤ) (bf : bloomFilterBasic) (item : α) :
    (bf.add_item H item).k = bf.k := rfl

theorem add_item_length {α : Type} (H : α → ℕ → ℤ) (bf : bloomFilterBasic)
    (item : α) : (bf.add_item H item).bit_array.length = bf.bit_array.length := by
  unfold bloomFilterBasic.add_item
  exact fold_addStep_length H bf.m item _ _

theorem add_item_bits_mono {α : Type} (H : α → ℕ → ℤ) (bf : bloomFilterBasic)
    (item : α) (q : ℕ) (h : bf.bit_array.getD q false = true) :
    (bf.add_item H item).bit_array.getD q false = true := by
  unfold bloomFilterBasic.add_item
  exact fold_addStep_mono H bf.m item _ _ q h

theorem add_item_x_mono {α : Type} (H : α → ℕ → ℤ) (bf : bloomFilterBasic)
    (item : α) : bf.x ≤ (bf.add_item H item).x := by
  unfold bloomFilterBasic.add_item
  exact fold_addStep_x_mono H bf.m item (List.range bf.k) (bf.bit_array, bf.x)

theorem add_item_wf {α : Type} (H : α → ℕ → ℤ) (bf : bloomFilterBasic)
    (item : α) (hwf : bf.wf) : (bf.add_item H item).wf := by
  obtain ⟨hlen, hm, hk, hc⟩ := hwf
  refine ⟨?_, ?_, ?_, ?_⟩
  · rw [add_item_length, hlen, add_item_m]
  · rw [add_item_m]; exact hm
  · rw [add_item_k]; exact hk
  · unfold bloomFilterBasic.add_item
    exact fold_addStep_count H bf.m item hm _ _ hlen hc

theorem query_item_eq_true_iff {α : Type} (H : α → ℕ → ℤ)
    (bf : bloomFilterBasic) (item : α) :
    bf.query_item H item = true ↔
      ∀ i < bf.k, bf.bit_array.getD (compute_hash H bf.m item i) false = true := by
  unfold bloomFilterBasic.query_item
  rw [List.all_eq_true]
  constructor
  · intro h i hi
    exact h i (List.mem_range.mpr hi)
  · intro h i hi
    exact h i (List.mem_range.mp hi)

/-- Inserting an item makes its `k` bit positions 1, after which querying it
reports `true`. -/
theorem query_after_add {α : Type} (H : α → ℕ → ℤ) (bf : bloomFilterBasic)
    (item : α) (hlen : bf.bit_array.length = bf.m) (hm : 0 < bf.m) :
    (bf.add_item H item).query_item H item = true := by
  rw [query_item_eq_true_iff]
  intro i hi
  rw [add_item_k] at hi
  rw [add_item_m]
  show ((List.range bf.k).foldl (addStep H bf.m item)
    (bf.bit_array, bf.x)).1.getD (compute_hash H bf.m item i) false = true
  exact fold_addStep_sets H bf.m item hm (List.range bf.k) (bf.bit_array, bf.x)
    hlen i (List.mem_range.mpr hi)

/-- Query results stay `true` when the bit array only gains bits and
`m`, `k` are unchanged. -/
theorem query_mono {α : Type} (H : α → ℕ → ℤ) (bf bg : bloomFilterBasic)
    (item : α) (hm : bg.m = bf.m) (hk : bg.k = bf.k)
    (hbits : ∀ q, bf.bit_array.getD q false = true →
      bg.bit_array.getD q false = true)
    (h : bf.query_item H item = true) : bg.query_item H item = true := by
  rw [query_item_eq_true_iff] at h ⊢
  intro i hi
  rw [hk] at hi
  rw [hm]
  exact hbits _ (h i hi)

theorem query_after_add_other {α : Type} (H : α → ℕ → ℤ)
    (bf : bloomFilterBasic) (item other : α)
    (h : bf.query_item H item = true) :
    (bf.add_item H other).query_item H item = true := by
  exact query_mono H bf _ item (add_item_m H bf other) (add_item_k H bf other)
    (fun q hq => add_item_bits_mono H bf other q hq) h

/-! ### Facts about `runBasic` -/

theorem runBasic_append {α : Type} (H : α → ℕ → ℤ) (bf : bloomFilterBasic) :
    ∀ (l₁ l₂ : List (filterOp α)),
      runBasic H bf (l₁ ++ l₂) = runBasic H (runBasic H bf l₁) l₂ := by
  intro l₁
  induction l₁ generalizing bf with
  | nil => intro l₂; rfl
  | cons op t ih =>
    intro l₂
    cases op with
    | add a => simpa [runBasic] using ih _ _
    | query a => simpa [runBasic] using ih _ _

theorem runBasic_wf {α : Type} (H : α → ℕ → ℤ) :
    ∀ (ops : List (filterOp α)) (bf : bloomFilterBasic), bf.wf →
      (runBasic H bf ops).wf := by
  intro ops
  induction ops with
  | nil => intro bf h; exact h
  | cons op t ih =>
    intro bf h
    cases op with
    | add a => exact ih _ (add_item_wf H bf a h)
    | query a => exact ih _ h

theorem runBasic_x_mono {α : Type} (H : α → ℕ → ℤ) :
    ∀ (ops : List (filterOp α)) (bf : bloomFilterBasic),
      bf.x ≤ (runBasic H bf ops).x := by
  intro ops
  induction ops with
  | nil => intro bf; exact le_refl _
  | cons op t ih =>
    intro bf
    cases op with
    | add a => exact le_trans (add_item_x_mono H bf a) (ih _)
    | query a => exact ih bf

theorem runBasic_query_mono {α : Type} (H : α → ℕ → ℤ) :
    ∀ (ops : List (filterOp α)) (bf : bloomFilterBasic) (item : α),
      bf.query_item H item = true →
      (runBasic H bf ops).query_item H item = true := by
  intro ops
  induction ops with
  | nil => intro bf item h; exact h
  | cons op t ih =>
    intro bf item h
    cases op with
    | add a => exact ih _ item (query_after_add_other H bf item a h)
    | query a => exact ih bf item h

/-! ### Facts about the sized filter (`bloomFilter`) -/

theorem bloomFilterBasic_init_wf (n_bits n_hash : ℤ) (bf : bloomFilterBasic)
    (h : bloomFilterBasic.init n_bits n_hash = some bf) :
    bf.wf ∧ bf.x = 0 ∧ bf.bit_array = List.replicate bf.m false := by
  unfold bloomFilterBasic.init at h
  split at h
  next hpos =>
    obtain ⟨hb, hh⟩ := hpos
    obtain rfl := Option.some.inj h
    refine ⟨⟨?_, ?_, ?_, ?_⟩, rfl, rfl⟩
    · simp
    · simpa using hb
    · simpa using hh
    · rw [List.count_replicate]
      simp
  next => exact absurd h (by simp)

theorem bloomFilter_init_fields (cap fpr : ℝ) (bf : bloomFilter)
    (h : bloomFilter.init cap fpr = some bf) :
    bf.n = cap ∧ bf.p = fpr ∧ bf.tobloomFilterBasic.wf ∧ bf.x = 0 := by
  unfold bloomFilter.init at h
  split at h
  next hpos =>
    cases hb : bloomFilterBasic.init (m_opt cap fpr) (k_opt fpr) with
    | none => rw [hb] at h; exact absurd h (by simp)
    | some b =>
      rw [hb] at h
      obtain rfl := Option.some.inj h
      obtain ⟨hwf, hx, _⟩ := bloomFilterBasic_init_wf _ _ _ hb
      exact ⟨rfl, rfl, hwf, hx⟩
  next => exact absurd h (by simp)

theorem bloomFilter_init_isSome_iff (cap fpr : ℝ) :
    (bloomFilter.init cap fpr).isSome = true ↔
      ((0 < fpr ∧ fpr < 1) ∧ 0 < cap) ∧ 0 < m_opt cap fpr ∧ 0 < k_opt fpr := by
  unfold bloomFilter.init bloomFilterBasic.init
  by_cases h1 : (0 < fpr ∧ fpr < 1) ∧ 0 < cap
  · rw [if_pos h1]
    by_cases h2 : 0 < m_opt cap fpr ∧ 0 < k_opt fpr
    · rw [if_pos h2]
      simpa using ⟨h1, h2⟩
    · rw [if_neg h2]
      simp only [Option.isSome_none, Bool.false_eq_true, false_iff]
      intro hc
      exact h2 hc.2
  · rw [if_neg h1]
    simp only [Option.isSome_none, Bool.false_eq_true, false_iff]
    intro hc
    exact h1 hc.1

theorem sized_add_item_n {α : Type} (H : α → ℕ → ℤ) (f : bloomFilter) (item : α) :
    (f.add_item H item).n = f.n := rfl

theorem sized_add_item_p {α : Type} (H : α → ℕ → ℤ) (f : bloomFilter) (item : α) :
    (f.add_item H item).p = f.p := rfl

theorem sized_add_item_basic {α : Type} (H : α → ℕ → ℤ) (f : bloomFilter)
    (item : α) :
    (f.add_item H item).tobloomFilterBasic = f.tobloomFilterBasic.add_item H item := rfl

theorem sized_query_after_add {α : Type} (H : α → ℕ → ℤ) (f : bloomFilter)
    (item : α) (hwf : f.tobloomFilterBasic.wf) :
    (f.add_item H item).query_item H item = true :=
  query_after_add H f.tobloomFilterBasic item hwf.1 hwf.2.1

theorem sized_query_after_add_other {α : Type} (H : α → ℕ → ℤ) (f : bloomFilter)
    (item other : α) (h : f.query_item H item = true) :
    (f.add_item H other).query_item H item = true :=
  query_after_add_other H f.tobloomFilterBasic item other h

theorem sized_add_item_wf {α : Type} (H : α → ℕ → ℤ) (f : bloomFilter)
    (item : α) (hwf : f.tobloomFilterBasic.wf) :
    (f.add_item H item).tobloomFilterBasic.wf :=
  add_item_wf H f.tobloomFilterBasic item hwf

theorem runSized_toBasic {α : Type} (H : α → ℕ → ℤ) :
    ∀ (ops : List (filterOp α)) (f : bloomFilter),
      (runSized H f ops).tobloomFilterBasic = runBasic H f.tobloomFilterBasic ops := by
  intro ops
  induction ops with
  | nil => intro f; rfl
  | cons op t ih =>
    intro f
    cases op with
    | add a => simpa [runSized, runBasic] using ih _
    | query a => simpa [runSized, runBasic] using ih _

/-! ### Case analysis of `scalableBloomFilter.add_item` -/

/-- A successful `add_item` call took exactly one of the three source paths:
early return on a positive query, insertion into the (non-saturated) last
filter, or growth followed by insertion into the appended filter. -/
theorem scalable_add_cases {α : Type} (H : α → ℕ → ℤ)
    (sb sb' : scalableBloomFilter) (item : α)
    (h : sb.add_item H item = some sb') :
    (sb.query_item H item = true ∧ sb' = sb) ∨
    (sb.query_item H item = false ∧ ∃ hl : 0 < sb.filters.length,
      ((sb.filters.get ⟨sb.filters.length - 1, by omega⟩).is_at_capacity =
          some false ∧
        sb' = { sb with filters := (sb.filters.set (sb.filters.length - 1)
            ((sb.filters.get ⟨sb.filters.length - 1, by omega⟩).add_item H item)) }) ∨
      ((sb.filters.get ⟨sb.filters.length - 1, by omega⟩).is_at_capacity =
          some true ∧
        ∃ nf, bloomFilter.init (sb.cap_current * sb.s) (sb.fpr_current * sb.r) =
            some nf ∧
          sb' = { sb with cap_current := sb.cap_current * sb.s,
                          fpr_current := sb.fpr_current * sb.r,
                          filters := sb.filters ++ [nf.add_item H item] })) := by
  unfold scalableBloomFilter.add_item at h
  by_cases hq : sb.query_item H item
  · left
    rw [if_pos hq] at h
    exact ⟨hq, (Option.some.inj h).symm⟩
  · right
    rw [if_neg hq] at h
    refine ⟨by simpa using hq, ?_⟩
    by_cases hl : 0 < sb.filters.length
    · rw [dif_pos hl] at h
      refine ⟨hl, ?_⟩
      split at h
      next => exact absurd h (by simp)
      next hcap =>
        left
        exact ⟨hcap, (Option.some.inj h).symm⟩
      next hcap =>
        right
        refine ⟨hcap, ?_⟩
        split at h
        next => exact absurd h (by simp)
        next nf hnf => exact ⟨nf, hnf, (Option.some.inj h).symm⟩
    · rw [dif_neg hl] at h
      exact absurd h (by simp)

theorem scalable_add_wfS {α : Type} (H : α → ℕ → ℤ)
    (sb sb' : scalableBloomFilter) (item : α) (hwf : sb.wfS)
    (h : sb.add_item H item = some sb') : sb'.wfS := by
  rcases scalable_add_cases H sb sb' item h with ⟨_, rfl⟩ | ⟨_, hl, hcase⟩
  · exact hwf
  · rcases hcase with ⟨_, rfl⟩ | ⟨_, nf, hnf, rfl⟩
    · intro j hj
      have hj0 : j < sb.filters.length := by simpa using hj
      simp only [List.get_eq_getElem, List.getElem_set]
      split
      next heq => exact sized_add_item_wf H _ item (hwf _ (by omega))
      next => exact hwf j hj0
    · intro j hj
      have hj0 : j < sb.filters.length + 1 := by simpa using hj
      by_cases hjl : j < sb.filters.length
      · simp only [List.get_eq_getElem]
        rw [List.getElem_append_left hjl]
        exact hwf j hjl
      · have hje : j = sb.filters.length := by omega
        subst hje
        have hval : (sb.filters ++ [nf.add_item H item]).get
            ⟨sb.filters.length, by simp⟩ = nf.add_item H item := by simp
        rw [hval]
        exact sized_add_item_wf H nf item (bloomFilter_init_fields _ _ _ hnf).2.2.1

/-- A successful `add_item` makes the added item queryable. -/
theorem scalable_add_query_self {α : Type} (H : α → ℕ → ℤ)
    (sb sb' : scalableBloomFilter) (item : α) (hwf : sb.wfS)
    (h : sb.add_item H item = some sb') : sb'.query_item H item = true := by
  rcases scalable_add_cases H sb sb' item h with ⟨hq, rfl⟩ | ⟨hq, hl, hcase⟩
  · exact hq
  · rcases hcase with ⟨_, rfl⟩ | ⟨_, nf, hnf, rfl⟩
    · unfold scalableBloomFilter.query_item
      rw [List.any_eq_true]
      refine ⟨(sb.filters.get ⟨sb.filters.length - 1, by omega⟩).add_item H item,
        ?_, sized_query_after_add H _ item (hwf _ _)⟩
      have hlen' : sb.filters.length - 1 <
          (sb.filters.set (sb.filters.length - 1)
            ((sb.filters.get ⟨sb.filters.length - 1, by omega⟩).add_item H item)).length := by
        rw [List.length_set]; omega
      have hval := List.getElem_set (l := sb.filters)
        (n := sb.filters.length - 1) (m := sb.filters.length - 1)
        (a := (sb.filters.get ⟨sb.filters.length - 1, by omega⟩).add_item H item)
        (h := hlen')
      rw [if_pos rfl] at hval
      have hmem := List.getElem_mem hlen'
      rw [hval] at hmem
      exact hmem
    · unfold scalableBloomFilter.query_item
      rw [List.any_eq_true]
      exact ⟨nf.add_item H item, by simp,
        sized_query_after_add H nf item (bloomFilter_init_fields _ _ _ hnf).2.2.1⟩

/-- A positive query result survives any later successful `add_item`. -/
theorem scalable_add_query_mono {α : Type} (H : α → ℕ → ℤ)
    (sb sb' : scalableBloomFilter) (item other : α)
    (h : sb.add_item H other = some sb')
    (hq : sb.query_item H item = true) : sb'.query_item H item = true := by
  rcases scalable_add_cases H sb sb' other h with ⟨_, rfl⟩ | ⟨_, hl, hcase⟩
  · exact hq
  · obtain ⟨j, hjq⟩ : ∃ j : Fin sb.filters.length,
        (sb.filters.get j).query_item H item = true := by
      unfold scalableBloomFilter.query_item at hq
      rw [List.any_eq_true] at hq
      obtain ⟨f, hf, hfq⟩ := hq
      obtain ⟨j, rfl⟩ := List.mem_iff_get.mp hf
      exact ⟨j, hfq⟩
    rcases hcase with ⟨_, rfl⟩ | ⟨_, nf, hnf, rfl⟩
    · unfold scalableBloomFilter.query_item
      rw [List.any_eq_true]
      by_cases hje : sb.filters.length - 1 = j.1
      · refine ⟨(sb.filters.get ⟨sb.filters.length - 1, by omega⟩).add_item H other,
          ?_, sized_query_after_add_other H _ item other ?_⟩
        · have hlen' : sb.filters.length - 1 <
              (sb.filters.set (sb.filters.length - 1)
                ((sb.filters.get ⟨sb.filters.length - 1, by omega⟩).add_item H other)).length := by
            rw [List.length_set]; omega
          have hval := List.getElem_set (l := sb.filters)
            (n := sb.filters.length - 1) (m := sb.filters.length - 1)
            (a := (sb.filters.get ⟨sb.filters.length - 1, by omega⟩).add_item H other)
            (h := hlen')
          rw [if_pos rfl] at hval
          have hmem := List.getElem_mem hlen'
          rw [hval] at hmem
          exact hmem
        · have : (⟨sb.filters.length - 1, by omega⟩ : Fin sb.filters.length) = j :=
            Fin.ext hje
          rw [this]
          exact hjq
      · refine ⟨sb.filters.get j, ?_, hjq⟩
        have hlen' : j.1 <
            (sb.filters.set (sb.filters.length - 1)
              ((sb.filters.get ⟨sb.filters.length - 1, by omega⟩).add_item H other)).length := by
          rw [List.length_set]; exact j.2
        have hval := List.getElem_set (l := sb.filters)
          (m := sb.filters.length - 1) (n := j.1)
          (a := (sb.filters.get ⟨sb.filters.length - 1, by omega⟩).add_item H other)
          (h := hlen')
        rw [if_neg hje] at hval
        have hget : sb.filters.get j = sb.filters[j.1] := rfl
        have hmem := List.getElem_mem hlen'
        rw [hval] at hmem
        rw [hget]
        exact hmem
    · unfold scalableBloomFilter.query_item
      rw [List.any_eq_true]
      exact ⟨sb.filters.get j, List.mem_append_left _ (List.get_mem sb.filters j.1 j.2), hjq⟩

/-- One successful `add_item` grows `filters` by zero or exactly one. -/
theorem scalable_add_length {α : Type} (H : α → ℕ → ℤ)
    (sb sb' : scalableBloomFilter) (item : α)
    (h : sb.add_item H item = some sb') :
    sb'.filters.length = sb.filters.length ∨
      sb'.filters.length = sb.filters.length + 1 := by
  rcases scalable_add_cases H sb sb' item h with ⟨_, rfl⟩ | ⟨_, hl, hcase⟩
  · left; rfl
  · rcases hcase with ⟨_, rfl⟩ | ⟨_, nf, hnf, rfl⟩
    · left; simp
    · right; simp

/-! ### Facts about `runScalable` -/

theorem runScalable_wfS {α : Type} (H : α → ℕ → ℤ) :
    ∀ (ops : List (filterOp α)) (sb sb' : scalableBloomFilter), sb.wfS →
      runScalable H sb ops = some sb' → sb'.wfS := by
  intro ops
  induction ops with
  | nil =>
    intro sb sb' hwf h
    obtain rfl := Option.some.inj h
    exact hwf
  | cons op t ih =>
    intro sb sb' hwf h
    cases op with
    | add a =>
      unfold runScalable at h
      split at h
      next => exact absurd h (by simp)
      next mid hmid => exact ih mid sb' (scalable_add_wfS H sb mid a hwf hmid) h
    | query a => exact ih sb sb' hwf h

theorem runScalable_query_mono {α : Type} (H : α → ℕ → ℤ) :
    ∀ (ops : List (filterOp α)) (sb sb' : scalableBloomFilter) (item : α),
      runScalable H sb ops = some sb' →
      sb.query_item H item = true → sb'.query_item H item = true := by
  intro ops
  induction ops with
  | nil =>
    intro sb sb' item h hq
    obtain rfl := Option.some.inj h
    exact hq
  | cons op t ih =>
    intro sb sb' item h hq
    cases op with
    | add a =>
      unfold runScalable at h
      split at h
      next => exact absurd h (by simp)
      next mid hmid =>
        exact ih mid sb' item h (scalable_add_query_mono H sb mid item a hmid hq)
    | query a => exact ih sb sb' item h hq

/-! ### The capacity / error-rate ladder invariant of the scalable filter -/

theorem scalable_init_elim (fpr cap0 s r : ℝ) (sb : scalableBloomFilter)
    (h : scalableBloomFilter.init fpr cap0 s r = some sb) :
    (((fpr < 1 ∧ 0 < fpr) ∧ 0 < cap0) ∧ 1 < s ∧ (0 < r ∧ r < 1)) ∧
    ∃ f, bloomFilter.init cap0 (fpr * r) = some f ∧
      sb = { cap_current := cap0, fpr_current := fpr * r, s := s, r := r,
             filters := [f] } := by
  unfold scalableBloomFilter.init at h
  split at h
  next hc =>
    refine ⟨hc, ?_⟩
    cases hf : bloomFilter.init cap0 (fpr * r) with
    | none => rw [hf] at h; exact absurd h (by simp)
    | some f =>
      rw [hf] at h
      exact ⟨f, rfl, (Option.some.inj h).symm⟩
  next => exact absurd h (by simp)

theorem scalable_init_wfS (fpr cap0 s r : ℝ) (sb : scalableBloomFilter)
    (h : scalableBloomFilter.init fpr cap0 s r = some sb) : sb.wfS := by
  obtain ⟨_, f, hf, rfl⟩ := scalable_init_elim fpr cap0 s r sb h
  intro j hj
  have hj0 : j = 0 := by simpa using hj
  subst hj0
  exact (bloomFilter_init_fields _ _ _ hf).2.2.1

/-- The structural invariant maintained by the growth policy: `s` and `r` are
the construction-time constants, `cap_current` / `fpr_current` are the
parameters of the newest filter, and the filter at creation index `j` was
built with capacity `cap0 * s^j` and false-positive rate `fpr0 * r^(j+1)`. -/
def scalableInv (cap0 fpr0 s0 r0 : ℝ) (sb : scalableBloomFilter) : Prop :=
  0 < sb.filters.length ∧ sb.s = s0 ∧ sb.r = r0 ∧
  sb.cap_current = cap0 * s0 ^ (sb.filters.length - 1) ∧
  sb.fpr_current = fpr0 * r0 ^ sb.filters.length ∧
  ∀ j (hj : j < sb.filters.length),
    (sb.filters.get ⟨j, hj⟩).n = cap0 * s0 ^ j ∧
    (sb.filters.get ⟨j, hj⟩).p = fpr0 * r0 ^ (j + 1)

theorem scalable_init_inv (fpr cap0 s r : ℝ) (sb : scalableBloomFilter)
    (h : scalableBloomFilter.init fpr cap0 s r = some sb) :
    scalableInv cap0 fpr s r sb := by
  obtain ⟨_, f, hf, rfl⟩ := scalable_init_elim fpr cap0 s r sb h
  obtain ⟨hn, hp, _, _⟩ := bloomFilter_init_fields _ _ _ hf
  refine ⟨by simp, rfl, rfl, by simp, by simp, ?_⟩
  intro j hj
  have hj0 : j = 0 := by simpa using hj
  subst hj0
  exact ⟨by simpa using hn, by simpa using hp⟩

theorem scalable_add_inv {α : Type} (H : α → ℕ → ℤ) (cap0 fpr0 s0 r0 : ℝ)
    (sb sb' : scalableBloomFilter) (item : α)
    (hinv : scalableInv cap0 fpr0 s0 r0 sb)
    (h : sb.add_item H item = some sb') : scalableInv cap0 fpr0 s0 r0 sb' := by
  obtain ⟨hlen, hs, hr, hcap, hfpr, hfil⟩ := hinv
  rcases scalable_add_cases H sb sb' item h with ⟨_, rfl⟩ | ⟨_, hl, hcase⟩
  · exact ⟨hlen, hs, hr, hcap, hfpr, hfil⟩
  · rcases hcase with ⟨_, rfl⟩ | ⟨_, nf, hnf, rfl⟩
    · refine ⟨by simpa using hlen, hs, hr, by simpa using hcap,
        by simpa using hfpr, ?_⟩
      intro j hj
      have hj0 : j < sb.filters.length := by simpa using hj
      simp only [List.get_eq_getElem, List.getElem_set]
      split
      next heq =>
        subst heq
        rw [sized_add_item_n, sized_add_item_p]
        have := hfil (sb.filters.length - 1) (by omega)
        simpa using this
      next => exact hfil j hj0
    · obtain ⟨hn, hp, _, _⟩ := bloomFilter_init_fields _ _ _ hnf
      have hlennew : ({ sb with
          cap_current := sb.cap_current * sb.s
          fpr_current := sb.fpr_current * sb.r
          filters := sb.filters ++ [nf.add_item H item] } :
            scalableBloomFilter).filters.length = sb.filters.length + 1 := by
        simp
      refine ⟨by simp, hs, hr, ?_, ?_, ?_⟩
      · rw [hlennew, hcap, hs]
        have : sb.filters.length + 1 - 1 = (sb.filters.length - 1) + 1 := by omega
        rw [this, pow_succ]
        ring
      · rw [hlennew, hfpr, hr, pow_succ]
        ring
      · intro j hj
        have hj0 : j < sb.filters.length + 1 := by simpa using hj
        by_cases hjl : j < sb.filters.length
        · simp only [List.get_eq_getElem]
          rw [List.getElem_append_left hjl]
          exact hfil j hjl
        · have hje : j = sb.filters.length := by omega
          subst hje
          have hval : (sb.filters ++ [nf.add_item H item]).get
              ⟨sb.filters.length, by simp⟩ = nf.add_item H item := by simp
          rw [hval, sized_add_item_n, sized_add_item_p, hn, hp, hcap, hfpr, hs, hr]
          constructor
          · have hL : sb.filters.length - 1 + 1 = sb.filters.length := by omega
            calc cap0 * s0 ^ (sb.filters.length - 1) * s0
                = cap0 * s0 ^ (sb.filters.length - 1 + 1) := by rw [pow_succ]; ring
              _ = cap0 * s0 ^ sb.filters.length := by rw [hL]
          · rw [pow_succ]
            ring

theorem runScalable_inv {α : Type} (H : α → ℕ → ℤ) (cap0 fpr0 s0 r0 : ℝ) :
    ∀ (ops : List (filterOp α)) (sb sb' : scalableBloomFilter),
      scalableInv cap0 fpr0 s0 r0 sb → runScalable H sb ops = some sb' →
      scalableInv cap0 fpr0 s0 r0 sb' := by
  intro ops
  induction ops with
  | nil =>
    intro sb sb' hinv h
    obtain rfl := Option.some.inj h
    exact hinv
  | cons op t ih =>
    intro sb sb' hinv h
    cases op with
    | add a =>
      unfold runScalable at h
      split at h
      next => exact absurd h (by simp)
      next mid hmid =>
        exact ih mid sb' (scalable_add_inv H cap0 fpr0 s0 r0 sb mid a hinv hmid) h
    | query a => exact ih sb sb' hinv h

/-! ### Arithmetic of the derived parameters `m_opt` and `k_opt` -/

theorem pytrunc_of_neg (y : ℝ) (h : y < 0) : pytrunc y = ⌈y⌉ := by
  unfold pytrunc
  rw [if_neg (not_le.mpr h)]

/-- For valid arguments the code's `- int(...)` is the floor (not the
ceiling) of the positive quantity `cap * ln(1/fpr) / (ln 2)^2`. -/
theorem m_opt_eq_floor (cap fpr : ℝ) (hcap : 0 < cap) (h0 : 0 < fpr)
    (h1 : fpr < 1) :
    m_opt cap fpr = ⌊cap * Real.log fpr⁻¹ / (Real.log 2) ^ 2⌋ := by
  have hlneg : Real.log fpr < 0 := Real.log_neg h0 h1
  have hsq : (0:ℝ) < (Real.log 2) ^ 2 :=
    pow_pos (Real.log_pos (by norm_num)) 2
  have hv : cap * Real.log fpr / (Real.log 2) ^ 2 < 0 :=
    div_neg_of_neg_of_pos (mul_neg_of_pos_of_neg hcap hlneg) hsq
  unfold m_opt
  rw [pytrunc_of_neg _ hv, ← Int.floor_neg]
  congr 1
  rw [Real.log_inv]
  ring

theorem k_opt_eq_floor (fpr : ℝ) (h0 : 0 < fpr) (h1 : fpr < 1) :
    k_opt fpr = ⌊Real.log fpr⁻¹ / Real.log 2⌋ := by
  have hlneg : Real.log fpr < 0 := Real.log_neg h0 h1
  have hlog2 : (0:ℝ) < Real.log 2 := Real.log_pos (by norm_num)
  have hy : Real.log fpr / Real.log 2 < 0 := div_neg_of_neg_of_pos hlneg hlog2
  unfold k_opt
  rw [pytrunc_of_neg _ hy, ← Int.floor_neg]
  congr 1
  rw [Real.log_inv]
  ring

theorem log_five_quarters_bounds :
    (3423/15360 : ℝ) ≤ Real.log (5/4) ∧ Real.log (5/4) ≤ (3433/15360 : ℝ) := by
  have h := Real.abs_log_sub_add_sum_range_le (x := -(1/4:ℝ))
    (by rw [abs_neg, abs_of_pos] <;> norm_num) 5
  have hs : (∑ i ∈ Finset.range 5, (-(1/4:ℝ)) ^ (i + 1) / (i + 1)) = -857/3840 := by
    simp [Finset.sum_range_succ]
    norm_num
  rw [hs] at h
  have habs : |(-(1/4:ℝ))| = 1/4 := by rw [abs_neg, abs_of_pos] <;> norm_num
  rw [habs] at h
  have h14 : (1 - (-(1/4:ℝ))) = 5/4 := by norm_num
  rw [h14] at h
  rw [abs_le] at h
  norm_num at h
  constructor <;> linarith [h.1, h.2]

theorem log_ten_decomp : Real.log 10 = 3 * Real.log 2 + Real.log (5/4) := by
  have h10 : (10:ℝ) = 2 ^ 3 * (5/4) := by norm_num
  rw [h10, Real.log_mul (by norm_num) (by norm_num), Real.log_pow]
  push_cast
  ring

/-- The quantity `100 * ln 10 / (ln 2)^2` lies strictly between 479 and 480. -/
theorem hundred_log_ten_bounds :
    (479 : ℝ) < 100 * Real.log 10 / (Real.log 2) ^ 2 ∧
      100 * Real.log 10 / (Real.log 2) ^ 2 < 480 := by
  have hLpos : (0:ℝ) < Real.log 2 := Real.log_pos (by norm_num)
  have ha : (0.6931471803 : ℝ) < Real.log 2 := Real.log_two_gt_d9
  have hb : Real.log 2 < (0.6931471808 : ℝ) := Real.log_two_lt_d9
  have hsq : (0:ℝ) < (Real.log 2) ^ 2 := pow_pos hLpos 2
  have hsqub : (Real.log 2) ^ 2 < (0.6931471808:ℝ) ^ 2 :=
    pow_lt_pow_left₀ hb hLpos.le (by norm_num)
  have hsqlb : ((0.6931471803:ℝ)) ^ 2 < (Real.log 2) ^ 2 :=
    pow_lt_pow_left₀ ha (by norm_num) (by norm_num)
  obtain ⟨hT1, hT2⟩ := log_five_quarters_bounds
  constructor
  · rw [lt_div_iff hsq]
    rw [log_ten_decomp]
    nlinarith [hsqub, hT1, ha]
  · rw [div_lt_iff hsq]
    rw [log_ten_decomp]
    nlinarith [hsqlb, hT2, hb]

theorem m_opt_100_tenth : m_opt 100 (1/10) = 479 := by
  rw [m_opt_eq_floor 100 (1/10) (by norm_num) (by norm_num) (by norm_num)]
  have hinv : ((1/10 : ℝ))⁻¹ = 10 := by norm_num
  rw [hinv]
  obtain ⟨h1, h2⟩ := hundred_log_ten_bounds
  rw [Int.floor_eq_iff]
  constructor
  · push_cast
    linarith
  · push_cast
    linarith

theorem ceil_100_log10 : ⌈(100:ℝ) * Real.log (1/10)⁻¹ / (Real.log 2) ^ 2⌉ = 480 := by
  have hinv : ((1/10 : ℝ))⁻¹ = 10 := by norm_num
  rw [hinv]
  obtain ⟨h1, h2⟩ := hundred_log_ten_bounds
  rw [Int.ceil_eq_iff]
  constructor
  · push_cast
    linarith
  · push_cast
    linarith

theorem k_opt_tenth : k_opt (1/10) = 3 := by
  rw [k_opt_eq_floor (1/10) (by norm_num) (by norm_num)]
  have hinv : ((1/10 : ℝ))⁻¹ = 10 := by norm_num
  rw [hinv]
  have hLpos : (0:ℝ) < Real.log 2 := Real.log_pos (by norm_num)
  have h3 : 3 * Real.log 2 ≤ Real.log 10 := by
    have h8 : Real.log 8 ≤ Real.log 10 := Real.log_le_log (by norm_num) (by norm_num)
    have : Real.log 8 = 3 * Real.log 2 := by
      rw [show (8:ℝ) = 2 ^ 3 by norm_num, Real.log_pow]
      push_cast
      ring
    linarith
  have h4 : Real.log 10 < 4 * Real.log 2 := by
    have h16 : Real.log 10 < Real.log 16 := Real.log_lt_log (by norm_num) (by norm_num)
    have : Real.log 16 = 4 * Real.log 2 := by
      rw [show (16:ℝ) = 2 ^ 4 by norm_num, Real.log_pow]
      push_cast
      ring
    linarith
  rw [Int.floor_eq_iff]
  constructor
  · push_cast
    rw [le_div_iff hLpos]
    linarith
  · push_cast
    rw [div_lt_iff hLpos]
    linarith

/-- For any `fpr` in `(1/2, 1)` the derived hash count is `0`:
`-log2 fpr` lies in `(0, 1)`, and truncation sends it to `0`. -/
theorem k_opt_eq_zero_of_half_lt (fpr : ℝ) (h0 : 1/2 < fpr) (h1 : fpr < 1) :
    k_opt fpr = 0 := by
  have h0' : 0 < fpr := by linarith
  have hlneg : Real.log fpr < 0 := Real.log_neg h0' h1
  have hlog2 : (0:ℝ) < Real.log 2 := Real.log_pos (by norm_num)
  have hy : Real.log fpr / Real.log 2 < 0 := div_neg_of_neg_of_pos hlneg hlog2
  have hgt : -1 < Real.log fpr / Real.log 2 := by
    have hhalf : Real.log (1/2) < Real.log fpr :=
      Real.log_lt_log (by norm_num) h0
    have hh : Real.log (1/2) = -Real.log 2 := by
      rw [show (1/2 : ℝ) = 2⁻¹ by norm_num, Real.log_inv]
    rw [neg_lt, ← neg_div]
    rw [div_lt_one hlog2]
    rw [hh] at hhalf
    linarith
  unfold k_opt
  rw [pytrunc_of_neg _ hy]
  have : ⌈Real.log fpr / Real.log 2⌉ = 0 := by
    rw [Int.ceil_eq_zero_iff]
    exact ⟨by simpa using hgt, by simpa using hy.le⟩
  rw [this]
  rfl

theorem k_opt_quarter : k_opt (1/4) = 2 := by
  have hlog2 : (0:ℝ) < Real.log 2 := Real.log_pos (by norm_num)
  have hq : Real.log (1/4 : ℝ) = -(2 * Real.log 2) := by
    rw [show (1/4 : ℝ) = (2 ^ 2)⁻¹ by norm_num, Real.log_inv, Real.log_pow]
    push_cast
    ring
  unfold k_opt
  have hy : Real.log (1/4 : ℝ) / Real.log 2 = -2 := by
    rw [hq]
    field_simp
  rw [hy, pytrunc_of_neg _ (by norm_num)]
  rw [show ((-2):ℝ) = ((-2:ℤ):ℝ) by push_cast; ring, Int.ceil_intCast]
  norm_num

theorem m_opt_128_quarter_pos : 0 < m_opt 128 (1/4) := by
  rw [m_opt_eq_floor 128 (1/4) (by norm_num) (by norm_num) (by norm_num)]
  have hlog2 : (0:ℝ) < Real.log 2 := Real.log_pos (by norm_num)
  have hb : Real.log 2 < (0.6931471808 : ℝ) := Real.log_two_lt_d9
  have hq : Real.log ((1/4 : ℝ))⁻¹ = 2 * Real.log 2 := by
    rw [show ((1/4 : ℝ))⁻¹ = 2 ^ 2 by norm_num, Real.log_pow]
    push_cast
    ring
  rw [hq]
  have h1 : (1:ℝ) ≤ 128 * (2 * Real.log 2) / (Real.log 2) ^ 2 := by
    rw [le_div_iff (pow_pos hlog2 2)]
    nlinarith
  exact Int.le_floor.mpr (by push_cast; linarith)

/-! ### Branch lemmas for `scalableBloomFilter.add_item` and evaluation helpers -/

theorem scalable_add_of_query_true {α : Type} (H : α → ℕ → ℤ)
    (sb : scalableBloomFilter) (item : α)
    (hq : sb.query_item H item = true) : sb.add_item H item = some sb := by
  unfold scalableBloomFilter.add_item
  rw [hq]
  simp

theorem scalable_add_of_not_saturated {α : Type} (H : α → ℕ → ℤ)
    (sb : scalableBloomFilter) (item : α)
    (hq : sb.query_item H item = false) (hl : 0 < sb.filters.length)
    (hcap : (sb.filters.get ⟨sb.filters.length - 1, by omega⟩).is_at_capacity =
      some false) :
    sb.add_item H item = some { sb with
      filters := (sb.filters.set (sb.filters.length - 1)
        ((sb.filters.get ⟨sb.filters.length - 1, by omega⟩).add_item H item)) } := by
  unfold scalableBloomFilter.add_item
  rw [hq]
  simp only [Bool.false_eq_true, if_false]
  rw [dif_pos hl, hcap]

theorem scalable_add_of_saturated {α : Type} (H : α → ℕ → ℤ)
    (sb : scalableBloomFilter) (item : α) (nf : bloomFilter)
    (hq : sb.query_item H item = false) (hl : 0 < sb.filters.length)
    (hcap : (sb.filters.get ⟨sb.filters.length - 1, by omega⟩).is_at_capacity =
      some true)
    (hnf : bloomFilter.init (sb.cap_current * sb.s) (sb.fpr_current * sb.r) =
      some nf) :
    sb.add_item H item = some { sb with
      cap_current := sb.cap_current * sb.s
      fpr_current := sb.fpr_current * sb.r
      filters := sb.filters ++ [nf.add_item H item] } := by
  unfold scalableBloomFilter.add_item
  rw [hq]
  simp only [Bool.false_eq_true, if_false]
  rw [dif_pos hl, hcap, hnf]

theorem approx_of_x_zero (bf : bloomFilterBasic) (hm : 0 < bf.m) (hk : 0 < bf.k)
    (hx : bf.x = 0) : bf.approximate_num_items = some 0 := by
  unfold bloomFilterBasic.approximate_num_items
  rw [if_pos ⟨hm, hk, by rw [hx]; simp⟩]
  rw [hx]
  push_cast
  simp

theorem is_at_capacity_of_x_zero (f : bloomFilter) (hm : 0 < f.m)
    (hk : 0 < f.k) (hx : f.x = 0) (hn : 0 ≤ f.n) :
    f.is_at_capacity = some false := by
  unfold bloomFilter.is_at_capacity
  rw [approx_of_x_zero f.tobloomFilterBasic hm hk hx]
  show (if (0:ℝ) > f.n then some true else some false) = some false
  rw [if_neg (not_lt.mpr hn)]

/-! ### Concrete states used by the witnesses and counterexamples -/

/-- A concrete stand-in for the external seeded hash (`mmh3`). -/
def hashW : ℕ → ℕ → ℤ := fun a i => (a : ℤ) + i

/-- A fresh 2-bit, 1-hash fixed filter. -/
def bfW : bloomFilterBasic := { m := 2, k := 1, bit_array := [false, false], x := 0 }

/-- A fully saturated 1-bit, 1-hash fixed filter (`x == m`). -/
def bfFull : bloomFilterBasic := { m := 1, k := 1, bit_array := [true], x := 1 }

/-- A sized filter wrapping the saturated `bfFull`. -/
noncomputable def sizedFull : bloomFilter :=
  { tobloomFilterBasic := bfFull, n := 5, p := 1/2 }

/-- A scalable filter whose only member already reports every item. -/
noncomputable def sbT : scalableBloomFilter :=
  { cap_current := 20, fpr_current := 1/4, s := 2, r := 1/2, filters := [sizedFull] }

/-- A fresh 4-bit sized filter with room to spare. -/
noncomputable def sizedFresh : bloomFilter :=
  { tobloomFilterBasic :=
      { m := 4, k := 1, bit_array := [false, false, false, false], x := 0 },
    n := 20, p := 1/4 }

/-- A scalable filter holding only `sizedFresh`. -/
noncomputable def sbFresh : scalableBloomFilter :=
  { cap_current := 20, fpr_current := 1/4, s := 2, r := 1/2, filters := [sizedFresh] }

/-- The sized filter produced by `bloomFilter.init 128 (1/4)`. -/
noncomputable def sbHalfFirst : bloomFilter :=
  { m := (m_opt 128 (1/4)).toNat, k := (k_opt (1/4)).toNat,
    bit_array := List.replicate (m_opt 128 (1/4)).toNat false, x := 0,
    n := 128, p := 1/4 }

/-- The scalable filter produced by
`scalableBloomFilter.init (1/2) 128 2 (1/2)`. -/
noncomputable def sbHalf : scalableBloomFilter :=
  { cap_current := 128, fpr_current := 1/4, s := 2, r := 1/2,
    filters := [sbHalfFirst] }

theorem scalable_init_half_eval :
    scalableBloomFilter.init (1/2) 128 2 (1/2) = some sbHalf := by
  unfold scalableBloomFilter.init
  rw [if_pos (by norm_num)]
  rw [show (1/2 : ℝ) * (1/2) = (1/4 : ℝ) by norm_num]
  have hinit : bloomFilter.init 128 (1/4) = some sbHalfFirst := by
    unfold bloomFilter.init
    rw [if_pos (by norm_num)]
    unfold bloomFilterBasic.init
    rw [if_pos ⟨m_opt_128_quarter_pos, by rw [k_opt_quarter]; norm_num⟩]
    rfl
  rw [hinit]
  rfl

theorem sbFresh_cap_false :
    (sbFresh.filters.get ⟨sbFresh.filters.length - 1, by simp [sbFresh]⟩).is_at_capacity =
      some false :=
  is_at_capacity_of_x_zero sizedFresh (by decide) (by decide) rfl
    (by norm_num [sizedFresh])

theorem sbFresh_add_eval : sbFresh.add_item hashW 7 =
    some { sbFresh with filters := [sizedFresh.add_item hashW 7] } :=
  scalable_add_of_not_saturated hashW sbFresh 7 rfl (by simp [sbFresh])
    sbFresh_cap_false

theorem sbFresh_wfS : sbFresh.wfS := by
  intro j hj
  have hj0 : j = 0 := by simpa [sbFresh] using hj
  subst hj0
  exact (by decide : sizedFresh.tobloomFilterBasic.wf)

/-! ### The claims -/

/-- C1: no false negatives.  For each filter type, once `add_item x` has run
(successfully, for the scalable filter), `query_item x` answers `true`
immediately and after any further sequence of `add_item`/`query_item`
operations; the well-formedness used as a hypothesis is established by the
constructors and preserved by every operation (also proved here). -/
theorem c1_no_false_negatives (α : Type) (H : α → ℕ → ℤ) :
    (∀ (bf : bloomFilterBasic) (item : α) (ops : List (filterOp α)), bf.wf →
      (runBasic H (bf.add_item H item) ops).query_item H item = true) ∧
    (∀ (n_bits n_hash : ℤ) (bf : bloomFilterBasic),
      bloomFilterBasic.init n_bits n_hash = some bf →
      ∀ ops : List (filterOp α), (runBasic H bf ops).wf) ∧
    (∀ (bfS : bloomFilter) (item : α) (ops : List (filterOp α)),
      bfS.tobloomFilterBasic.wf →
      (runSized H (bfS.add_item H item) ops).query_item H item = true) ∧
    (∀ (sb sb' : scalableBloomFilter) (item : α), sb.wfS →
      sb.add_item H item = some sb' →
      sb'.query_item H item = true ∧
      ∀ (ops : List (filterOp α)) (sb'' : scalableBloomFilter),
        runScalable H sb' ops = some sb'' → sb''.query_item H item = true) ∧
    (∀ (fpr cap0 s0 r0 : ℝ) (sb : scalableBloomFilter),
      scalableBloomFilter.init fpr cap0 s0 r0 = some sb →
      ∀ (ops : List (filterOp α)) (sb' : scalableBloomFilter),
        runScalable H sb ops = some sb' → sb'.wfS) := by
  refine ⟨?_, ?_, ?_, ?_, ?_⟩
  · intro bf item ops hwf
    exact runBasic_query_mono H ops _ item (query_after_add H bf item hwf.1 hwf.2.1)
  · intro n_bits n_hash bf hinit ops
    exact runBasic_wf H ops bf (bloomFilterBasic_init_wf _ _ _ hinit).1
  · intro bfS item ops hwf
    unfold bloomFilter.query_item
    rw [runSized_toBasic, sized_add_item_basic]
    exact runBasic_query_mono H ops _ item
      (query_after_add H bfS.tobloomFilterBasic item hwf.1 hwf.2.1)
  · intro sb sb' item hwf hadd
    refine ⟨scalable_add_query_self H sb sb' item hwf hadd, ?_⟩
    intro ops sb'' hrun
    exact runScalable_query_mono H ops sb' sb'' item hrun
      (scalable_add_query_self H sb sb' item hwf hadd)
  · intro fpr cap0 s0 r0 sb hinit ops sb' hrun
    exact runScalable_wfS H ops sb sb' (scalable_init_wfS fpr cap0 s0 r0 sb hinit) hrun

/-- Witness for C1: a concrete fixed filter and a concrete scalable filter,
with every hypothesis discharged. -/
theorem c1_witness :
    bfW.wf ∧
    (runBasic hashW (bfW.add_item hashW 5) []).query_item hashW 5 = true ∧
    ({ sbFresh with filters := [sizedFresh.add_item hashW 7] } :
      scalableBloomFilter).query_item hashW 7 = true := by
  refine ⟨by decide, (c1_no_false_negatives ℕ hashW).1 bfW 5 [] (by decide), ?_⟩
  exact ((c1_no_false_negatives ℕ hashW).2.2.2.1 sbFresh _ 7 sbFresh_wfS
    sbFresh_add_eval).1

/-- C2 counterexample: at `capacity = 100`, `fpr = 1/10` the code derives
`m = 479`, whereas the claimed formula `ceil(-cap * ln fpr / (ln 2)^2)`
equals `480`. -/
theorem c2_counterexample :
    m_opt 100 (1/10) = 479 ∧
    ⌈-((100:ℝ) * Real.log (1/10)) / (Real.log 2) ^ 2⌉ = 480 ∧
    (479 : ℤ) ≠ 480 := by
  refine ⟨m_opt_100_tenth, ?_, by norm_num⟩
  have h : -((100:ℝ) * Real.log (1/10)) / (Real.log 2) ^ 2 =
      (100:ℝ) * Real.log (1/10)⁻¹ / (Real.log 2) ^ 2 := by
    rw [Real.log_inv]
    ring
  rw [h]
  exact ceil_100_log10

/-- C2 (amended): `int()` truncates toward zero, so the code's bit count is
the floor `m = ⌊-cap * ln(fpr) / (ln 2)^2⌋` (one below the claimed ceiling
whenever the quantity is non-integral), and `k = ⌊-log2(fpr)⌋` as claimed; the
(100, 1/10) example derives `m = 479` (not 480) and `k = 3`. -/
theorem c2_parameter_derivation :
    (∀ cap fpr : ℝ, 0 < cap → 0 < fpr → fpr < 1 →
      m_opt cap fpr = ⌊-(cap * Real.log fpr) / (Real.log 2) ^ 2⌋ ∧
      k_opt fpr = ⌊-(Real.log fpr / Real.log 2)⌋) ∧
    m_opt 100 (1/10) = 479 ∧ k_opt (1/10) = 3 := by
  refine ⟨?_, m_opt_100_tenth, k_opt_tenth⟩
  intro cap fpr hcap h0 h1
  constructor
  · rw [m_opt_eq_floor cap fpr hcap h0 h1]
    congr 1
    rw [Real.log_inv]
    ring
  · rw [k_opt_eq_floor fpr h0 h1]
    congr 1
    rw [Real.log_inv]
    ring

/-- Witness for C2 (amended) at `cap = 100`, `fpr = 1/10`. -/
theorem c2_witness :
    m_opt 100 (1/10) = ⌊-((100:ℝ) * Real.log (1/10)) / (Real.log 2) ^ 2⌋ ∧
    k_opt (1/10) = ⌊-(Real.log (1/10) / Real.log 2)⌋ :=
  c2_parameter_derivation.1 100 (1/10) (by norm_num) (by norm_num) (by norm_num)

/-- C3 counterexample: a freshly built
`scalableBloomFilter(fpr0 = 1/2, cap0 = 128, s = 2, r = 1/2)` holds one
filter whose stored rate is `1/4 = fpr0 * r`, not `fpr0 * r^0 = 1/2`:
the rate ladder starts at exponent 1, not 0. -/
theorem c3_counterexample :
    (scalableBloomFilter.init (1/2) 128 2 (1/2)).map
        (fun sb => sb.filters.map fun f => f.p) = some [(1/4 : ℝ)] ∧
    (1/2 : ℝ) * (1/2) ^ (0:ℕ) = 1/2 ∧ ((1/4 : ℝ)) ≠ (1/2 : ℝ) := by
  refine ⟨?_, by norm_num, by norm_num⟩
  rw [scalable_init_half_eval]
  rfl

/-- C3 (amended): after construction with `(fpr0, cap0, s, r)` and any
successful operation sequence, `filters` is non-empty, the filter at creation
index `i` was built with capacity `cap0 * s^i` and rate `fpr0 * r^(i+1)`
(the constructor applies one decay step before building filter 0), and a
successful `add_item` appends at most one filter. -/
theorem c3_growth_ladder (α : Type) (H : α → ℕ → ℤ) (fpr0 cap0 s0 r0 : ℝ)
    (sb0 : scalableBloomFilter)
    (hinit : scalableBloomFilter.init fpr0 cap0 s0 r0 = some sb0)
    (ops : List (filterOp α)) (sb : scalableBloomFilter)
    (hrun : runScalable H sb0 ops = some sb) :
    (0 < sb.filters.length ∧
      ∀ j (hj : j < sb.filters.length),
        (sb.filters.get ⟨j, hj⟩).n = cap0 * s0 ^ j ∧
        (sb.filters.get ⟨j, hj⟩).p = fpr0 * r0 ^ (j + 1)) ∧
    ∀ (item : α) (sb' : scalableBloomFilter), sb.add_item H item = some sb' →
      sb'.filters.length = sb.filters.length ∨
      sb'.filters.length = sb.filters.length + 1 := by
  have hinv := runScalable_inv H cap0 fpr0 s0 r0 ops sb0 sb
    (scalable_init_inv fpr0 cap0 s0 r0 sb0 hinit) hrun
  exact ⟨⟨hinv.1, hinv.2.2.2.2.2⟩,
    fun item sb' h => scalable_add_length H sb sb' item h⟩

/-- Witness for C3 (amended): the freshly constructed filter has capacity
`128 * 2^0` and rate `(1/2) * (1/2)^1`. -/
theorem c3_witness :
    (sbHalf.filters.map fun f => f.n) = [(128:ℝ) * 2 ^ (0:ℕ)] ∧
    (sbHalf.filters.map fun f => f.p) = [(1/2:ℝ) * (1/2) ^ (0+1:ℕ)] := by
  have h := (c3_growth_ladder ℕ hashW (1/2) 128 2 (1/2) sbHalf
    scalable_init_half_eval [] sbHalf rfl).1
  have h0 := h.2 0 h.1
  exact ⟨congrArg (fun z => [z]) h0.1, congrArg (fun z => [z]) h0.2⟩

/-- C4: the `add_item` policy of the scalable filter — early return with the
state unchanged when the query is already positive; otherwise insertion into
the last filter when it is not at capacity; otherwise grow `cap_current` by
`s` and `fpr_current` by `r`, append exactly one filter built from the updated
values, and insert into it. -/
theorem c4_add_policy (α : Type) (H : α → ℕ → ℤ) (sb : scalableBloomFilter)
    (item : α) :
    (sb.query_item H item = true → sb.add_item H item = some sb) ∧
    (sb.query_item H item = false → ∀ hl : 0 < sb.filters.length,
      ((sb.filters.get ⟨sb.filters.length - 1, by omega⟩).is_at_capacity =
          some false →
        sb.add_item H item = some { sb with
          filters := (sb.filters.set (sb.filters.length - 1)
            ((sb.filters.get ⟨sb.filters.length - 1, by omega⟩).add_item H item)) }) ∧
      ∀ nf : bloomFilter,
        (sb.filters.get ⟨sb.filters.length - 1, by omega⟩).is_at_capacity =
          some true →
        bloomFilter.init (sb.cap_current * sb.s) (sb.fpr_current * sb.r) =
          some nf →
        sb.add_item H item = some { sb with
          cap_current := sb.cap_current * sb.s
          fpr_current := sb.fpr_current * sb.r
          filters := sb.filters ++ [nf.add_item H item] }) :=
  ⟨scalable_add_of_query_true H sb item,
   fun hq hl => ⟨scalable_add_of_not_saturated H sb item hq hl,
     fun nf hcap hnf => scalable_add_of_saturated H sb item nf hq hl hcap hnf⟩⟩

/-- Witness for C4: the early-return branch on a concrete state whose query
is already positive. -/
theorem c4_witness :
    sbT.query_item hashW 3 = true ∧ sbT.add_item hashW 3 = some sbT := by
  have hq : sbT.query_item hashW 3 = true := rfl
  exact ⟨hq, (c4_add_policy ℕ hashW sbT 3).1 hq⟩

/-- C5: `approximate_num_items` returns `-(m/k) * ln(1 - x/m)` while
`x < m` (here `0` for a fresh filter), but at `x == m` the code has NO
special case: it evaluates `math.log(0.0)`, which raises `ValueError`
(modelled as `none`), and `is_at_capacity` propagates the exception. -/
theorem c5_saturated_estimator :
    bfW.approximate_num_items = some 0 ∧
    bfFull.approximate_num_items = none ∧
    sizedFull.is_at_capacity = none := by
  refine ⟨approx_of_x_zero bfW (by decide) (by decide) rfl, ?_, ?_⟩
  · norm_num [bloomFilterBasic.approximate_num_items, bfFull]
  · unfold bloomFilter.is_at_capacity
    have h2 : bfFull.approximate_num_items = none := by
      norm_num [bloomFilterBasic.approximate_num_items, bfFull]
    rw [show sizedFull.tobloomFilterBasic = bfFull from rfl, h2]

/-- C6: for a constructed fixed filter, after any operation sequence `x`
equals the number of set bits, `x ≤ m` always holds, and `x` never decreases
under further operations. -/
theorem c6_setcount_invariant (α : Type) (H : α → ℕ → ℤ) (n_bits n_hash : ℤ)
    (bf : bloomFilterBasic)
    (hinit : bloomFilterBasic.init n_bits n_hash = some bf)
    (ops more : List (filterOp α)) :
    (runBasic H bf ops).x = (runBasic H bf ops).bit_array.count true ∧
    (runBasic H bf ops).x ≤ (runBasic H bf ops).m ∧
    (runBasic H bf ops).x ≤ (runBasic H bf (ops ++ more)).x := by
  have hwf := runBasic_wf H ops bf (bloomFilterBasic_init_wf _ _ _ hinit).1
  obtain ⟨hlen, hm, hk, hc⟩ := hwf
  refine ⟨hc, ?_, ?_⟩
  · rw [hc, ← hlen]
    exact List.count_le_length _ _
  · rw [runBasic_append]
    exact runBasic_x_mono H more _

/-- Witness for C6 on a concrete constructed filter and one insertion. -/
theorem c6_witness :
    bloomFilterBasic.init 2 1 = some bfW ∧
    (runBasic hashW bfW [filterOp.add 5]).x =
      (runBasic hashW bfW [filterOp.add 5]).bit_array.count true :=
  ⟨rfl, (c6_setcount_invariant ℕ hashW 2 1 bfW rfl [filterOp.add 5] []).1⟩

/-- C7 counterexample: `capacity = 100`, `fpr = 3/4` lie inside the claimed
valid range, yet construction fails: the derived hash count is
`-int(log2(3/4)) = 0` and the inner `bloomFilterBasic` assert fires. -/
theorem c7_counterexample :
    ((0:ℝ) < 100 ∧ (0:ℝ) < 3/4 ∧ (3/4:ℝ) < 1) ∧
    bloomFilter.init 100 (3/4) = none := by
  refine ⟨by norm_num, ?_⟩
  unfold bloomFilter.init
  rw [if_pos (by norm_num)]
  have hbasic : bloomFilterBasic.init (m_opt 100 (3/4)) (k_opt (3/4)) = none := by
    unfold bloomFilterBasic.init
    rw [if_neg]
    intro hc
    rw [k_opt_eq_zero_of_half_lt (3/4) (by norm_num) (by norm_num)] at hc
    exact lt_irrefl 0 hc.2
  rw [hbasic]

/-- C7 (amended): construction succeeds exactly when `cap > 0`,
`fpr ∈ (0,1)` AND both derived parameters are positive; in particular every
`fpr ∈ (1/2, 1)` fails (the derived `k` is 0) although the claimed
precondition holds. -/
theorem c7_construction_contract (cap fpr : ℝ) :
    ((bloomFilter.init cap fpr).isSome = true ↔
      ((0 < fpr ∧ fpr < 1) ∧ 0 < cap) ∧ 0 < m_opt cap fpr ∧ 0 < k_opt fpr) ∧
    (1/2 < fpr → fpr < 1 → bloomFilter.init cap fpr = none) := by
  refine ⟨bloomFilter_init_isSome_iff cap fpr, ?_⟩
  intro h0 h1
  rw [← Option.not_isSome_iff_eq_none]
  intro hs
  have hc := (bloomFilter_init_isSome_iff cap fpr).mp hs
  rw [k_opt_eq_zero_of_half_lt fpr h0 h1] at hc
  exact lt_irrefl 0 hc.2.2

/-- Witness for C7 (amended): `(128, 1/4)` satisfies the full condition and
the construction indeed succeeds. -/
theorem c7_witness : (bloomFilter.init 128 (1/4)).isSome = true :=
  (c7_construction_contract 128 (1/4)).1.mpr
    ⟨by norm_num, m_opt_128_quarter_pos, by rw [k_opt_quarter]; norm_num⟩

/-- C8: if `query_item x` is already `true`, `add_item x` returns the state
unchanged — same `filters` length and per-filter set-bit counters — and after
any successful `add_item x` an immediate second `add_item x` is a no-op. -/
theorem c8_idempotent (α : Type) (H : α → ℕ → ℤ) (sb : scalableBloomFilter)
    (item : α) :
    (sb.query_item H item = true →
      ∀ sb' : scalableBloomFilter, sb.add_item H item = some sb' →
        sb'.filters.length = sb.filters.length ∧
        (sb'.filters.map fun f => f.x) = (sb.filters.map fun f => f.x) ∧
        sb' = sb) ∧
    (sb.wfS → ∀ sb' : scalableBloomFilter, sb.add_item H item = some sb' →
      sb'.add_item H item = some sb') := by
  constructor
  · intro hq sb' h
    rw [scalable_add_of_query_true H sb item hq] at h
    obtain rfl := Option.some.inj h
    exact ⟨rfl, rfl, rfl⟩
  · intro hwf sb' h
    exact scalable_add_of_query_true H sb' item
      (scalable_add_query_self H sb sb' item hwf h)

/-- Witness for C8 on a concrete state with a positive query. -/
theorem c8_witness :
    sbT.filters.length = sbT.filters.length ∧
    (sbT.filters.map fun f => f.x) = (sbT.filters.map fun f => f.x) := by
  have hq : sbT.query_item hashW 3 = true := rfl
  have hadd : sbT.add_item hashW 3 = some sbT :=
    scalable_add_of_query_true hashW sbT 3 hq
  have h := (c8_idempotent ℕ hashW sbT 3).1 hq sbT hadd
  exact ⟨h.1, h.2.1⟩

/-- C9: for every item, seed index and positive modulus, `_compute_hash`
returns a position in `[0, m)`, so on a well-formed filter every bit-array
access of `add_item` / `query_item` is in bounds; as a pure function of
`(item, i, m)` it is deterministic by construction. -/
theorem c9_compute_hash_in_range (α : Type) (H : α → ℕ → ℤ) (m : ℕ)
    (item : α) (i : ℕ) (hm : 0 < m) :
    compute_hash H m item i < m ∧
    ∀ bf : bloomFilterBasic, bf.wf → bf.m = m →
      compute_hash H m item i < bf.bit_array.length := by
  have hb : compute_hash H m item i < m := by
    unfold compute_hash
    have hne : (m : ℤ) ≠ 0 := by exact_mod_cast hm.ne'
    have h1 : 0 ≤ H item i % (m : ℤ) := Int.emod_nonneg _ hne
    have h2 : H item i % (m : ℤ) < (m : ℤ) :=
      Int.emod_lt_of_pos _ (by exact_mod_cast hm)
    omega
  refine ⟨hb, ?_⟩
  intro bf hwf hmm
  rw [hwf.1, hmm]
  exact hb

/-- Witness for C9 at `m = 5`, item `3`, seed `0`. -/
theorem c9_witness : 0 < 5 ∧ compute_hash hashW 5 3 0 < 5 :=
  ⟨by norm_num, (c9_compute_hash_in_range ℕ hashW 5 3 0 (by norm_num)).1⟩

/-- C10: `query_item` is observation-only on all three filter types: running
a query operation leaves the entire state (bit arrays, counters, parameters,
filter list) unchanged. -/
theorem c10_query_pure (α : Type) (H : α → ℕ → ℤ) (bf : bloomFilterBasic)
    (bfS : bloomFilter) (sb : scalableBloomFilter) (a : α) :
    runBasic H bf [filterOp.query a] = bf ∧
    runSized H bfS [filterOp.query a] = bfS ∧
    runScalable H sb [filterOp.query a] = some sb :=
  ⟨rfl, rfl, rfl⟩

end BloomSpec
